import Mathlib

/-!
# Verification of the multithreaded LZ77 chunked compressor

A shallow embedding of `multithreaded_compressor.cpp` (the `LZ77` codec, the
container serializer `write_all`, the chunk-boundary computation in `main`,
and the decompression path `read_and_decompress_file`), together with proofs
of the specification's claims about it.

Bytes are modelled as natural numbers; machine-integer casts in the source
(`(u16)best_off`, the byte split `(off >> 8) & 0xFF` / `off & 0xFF`) appear
as explicit `% 65536`, `/ 256 % 256` and `% 256` operations.  Loops are
modelled by structural recursion: the encoder's inner `while` loop on a
countdown budget (`lookahead - len` for the match scanner, `pos - i` for the
candidate loop, and a fuel of `input.length` for the outer position loop,
which dominates its iteration count because every iteration advances `pos`
by at least one).
-/

namespace MTC

/-- `LZ77::window_size = 1 << 12` (4096). -/
def window_size : Nat := 2 ^ 12

/-- `LZ77::lookahead = 255` (maximum match length). -/
def lookahead : Nat := 255

/-- The inner `while` loop of the match search:
`while (len < lookahead && pos + len < n && input[i + len] == input[pos + len]) ++len;`.
The first argument of the recursion is the remaining budget `lookahead - len`,
so the budget reaching `0` is exactly the `len < lookahead` test failing. -/
def matchLenFrom (input : List Nat) (i pos : Nat) : Nat → Nat → Nat
  | 0, len => len
  | b + 1, len =>
    if pos + len < input.length ∧ input.getD (i + len) 0 = input.getD (pos + len) 0
    then matchLenFrom input i pos b (len + 1)
    else len

/-- The match length found at candidate position `i` for current position
`pos` (the inner loop entered with `len = 0`). -/
def mlen (input : List Nat) (i pos : Nat) : Nat := matchLenFrom input i pos lookahead 0

/-- `size_t start = (pos > window_size) ? pos - window_size : 0;` -/
def bstart (pos : Nat) : Nat := if window_size < pos then pos - window_size else 0

/-- The candidate loop
`for (size_t i = start; i < pos; ++i) { ... if (len > best_len) {...} if (best_len == lookahead) break; }`,
with budget `pos - i` as the first recursion argument.  The update replaces the
best match only on strictly greater length, and the loop breaks once the
(updated) best length reaches `lookahead`. -/
def bestFrom (input : List Nat) (pos : Nat) : Nat → Nat → Nat → Nat → Nat × Nat
  | 0, _, best_off, best_len => (best_off, best_len)
  | b + 1, i, best_off, best_len =>
    if best_len < mlen input i pos then
      if mlen input i pos = lookahead then (pos - i, mlen input i pos)
      else bestFrom input pos b (i + 1) (pos - i) (mlen input i pos)
    else
      if best_len = lookahead then (best_off, best_len)
      else bestFrom input pos b (i + 1) best_off best_len

/-- The outer `while (pos < n)` loop of `LZ77::compress`.  Fuel `b` bounds the
number of iterations; `compress` supplies `input.length`, which suffices
because each iteration advances `pos` by at least one.  The match branch emits
`0x01`, the big-endian bytes of `(u16)best_off`, and `min(best_len, 255)`;
the literal branch emits `0x00` and `input[pos]`. -/
def compressFrom (input : List Nat) : Nat → Nat → List Nat
  | 0, _ => []
  | b + 1, pos =>
    if pos < input.length then
      if 3 ≤ (bestFrom input pos (pos - bstart pos) (bstart pos) 0 0).2 then
        1 :: (bestFrom input pos (pos - bstart pos) (bstart pos) 0 0).1 % 65536 / 256 % 256
          :: (bestFrom input pos (pos - bstart pos) (bstart pos) 0 0).1 % 65536 % 256
          :: min (bestFrom input pos (pos - bstart pos) (bstart pos) 0 0).2 255
          :: compressFrom input b (pos + (bestFrom input pos (pos - bstart pos) (bstart pos) 0 0).2)
      else
        0 :: input.getD pos 0 :: compressFrom input b (pos + 1)
    else []

/-- `LZ77::compress`. -/
def compress (input : List Nat) : List Nat := compressFrom input input.length 0

/-- The match-copy loop of `LZ77::decompress`:
`for (size_t i = 0; i < len; ++i) out.push_back(out[start + i]);`.
The read happens on the *growing* vector, so an overlapping copy re-reads
bytes appended by the same token.  An out-of-bounds `out[start+i]` (impossible
after the offset check, see `decompressChecked`) is modelled as default `0`. -/
def copyLoop (out : List Nat) (start : Nat) : Nat → List Nat
  | 0 => out
  | len + 1 => copyLoop (out ++ [out.getD start 0]) (start + 1) len

/-- The `while (pos < n)` loop of `LZ77::decompress`, with the remaining
input as first argument and the output accumulated so far as second.
The error strings are the `runtime_error` messages of the source. -/
def decompressLoop : List Nat → List Nat → Except String (List Nat)
  | [], out => Except.ok out
  | [0], _ => Except.error "corrupt literal"
  | 0 :: b :: rest, out => decompressLoop rest (out ++ [b])
  | 1 :: hi :: lo :: len :: rest, out =>
    if hi * 256 + lo = 0 ∨ hi * 256 + lo > out.length then Except.error "invalid offset"
    else decompressLoop rest (copyLoop out (out.length - (hi * 256 + lo)) len)
  | 1 :: _, _ => Except.error "corrupt match"
  | _ :: _, _ => Except.error "unknown token flag"

/-- `LZ77::decompress`. -/
def decompress (input : List Nat) : Except String (List Nat) := decompressLoop input []

/-! ## Properties of the match scanner -/

theorem matchLenFrom_le (input : List Nat) (i pos : Nat) :
    ∀ b len, matchLenFrom input i pos b len ≤ len + b := by
  intro b
  induction b with
  | zero => intro len; simp [matchLenFrom]
  | succ b ih =>
    intro len
    rw [matchLenFrom]
    split
    · have := ih (len + 1); omega
    · omega

theorem matchLenFrom_ge (input : List Nat) (i pos : Nat) :
    ∀ b len, len ≤ matchLenFrom input i pos b len := by
  intro b
  induction b with
  | zero => intro len; simp [matchLenFrom]
  | succ b ih =>
    intro len
    rw [matchLenFrom]
    split
    · have := ih (len + 1); omega
    · omega

/-- Every index `k` below the found match length witnesses an in-bounds,
byte-for-byte agreement between the candidate and the current position. -/
theorem matchLenFrom_agree (input : List Nat) (i pos : Nat) :
    ∀ b len k, len ≤ k → k < matchLenFrom input i pos b len →
      pos + k < input.length ∧ input.getD (i + k) 0 = input.getD (pos + k) 0 := by
  intro b
  induction b with
  | zero =>
    intro len k hk hlt
    rw [matchLenFrom] at hlt; omega
  | succ b ih =>
    intro len k hk hlt
    rw [matchLenFrom] at hlt
    split at hlt
    · rename_i hcond
      rcases Nat.eq_or_lt_of_le hk with rfl | hk2
      · exact hcond
      · exact ih (len + 1) k hk2 hlt
    · omega

theorem mlen_le_lookahead (input : List Nat) (i pos : Nat) :
    mlen input i pos ≤ lookahead := by
  have := matchLenFrom_le input i pos lookahead 0
  unfold mlen; omega

theorem mlen_agree (input : List Nat) (i pos : Nat) :
    ∀ k, k < mlen input i pos →
      pos + k < input.length ∧ input.getD (i + k) 0 = input.getD (pos + k) 0 :=
  fun k hk => matchLenFrom_agree input i pos lookahead 0 k (Nat.zero_le k) hk

theorem mlen_add_le (input : List Nat) (i pos : Nat) (hpos : pos < input.length) :
    pos + mlen input i pos ≤ input.length := by
  rcases Nat.eq_zero_or_pos (mlen input i pos) with h0 | h1
  · omega
  · have := (mlen_agree input i pos (mlen input i pos - 1) (by omega)).1
    omega

/-! ## Characterization of the candidate scan `bestFrom`

The scan starts at the window floor `start0` and replaces the best match only
on strictly greater length, so the returned pair `(best_off, best_len)` has
maximal length among all candidates, and its offset `pos - i0` comes from the
*first* (left-most, i.e. farthest-back) candidate attaining that length. -/

/-- What the candidate scan computes: a length that is maximal over the
window, at most `lookahead`, and realized by the left-most maximal
candidate `i0` (whose offset `pos - i0` is therefore the *largest* among
equal-length candidates). -/
def BestPost (input : List Nat) (pos start0 : Nat) (r : Nat × Nat) : Prop :=
  r.2 ≤ lookahead ∧
  (∀ j, j < pos → start0 ≤ j → mlen input j pos ≤ r.2) ∧
  (0 < r.2 → ∃ i0, start0 ≤ i0 ∧ i0 < pos ∧ r.1 = pos - i0 ∧ r.2 = mlen input i0 pos ∧
    ∀ j, j < i0 → start0 ≤ j → mlen input j pos < r.2)

theorem bestFrom_spec (input : List Nat) (pos start0 : Nat) :
    ∀ b i best_off best_len, i + b = pos → start0 ≤ i → best_len ≤ lookahead →
    (∀ j, j < i → start0 ≤ j → mlen input j pos ≤ best_len) →
    (0 < best_len → ∃ i0, start0 ≤ i0 ∧ i0 < i ∧ best_off = pos - i0 ∧
        best_len = mlen input i0 pos ∧
        ∀ j, j < i0 → start0 ≤ j → mlen input j pos < best_len) →
    BestPost input pos start0 (bestFrom input pos b i best_off best_len) := by
  intro b
  induction b with
  | zero =>
    intro i bo bl hib hsi hla hmax hfirst
    rw [bestFrom]
    refine ⟨hla, fun j hj hj2 => hmax j (by omega) hj2, fun hbl => ?_⟩
    obtain ⟨i0, h1, h2, h3, h4, h5⟩ := hfirst hbl
    exact ⟨i0, h1, by omega, h3, h4, h5⟩
  | succ b ih =>
    intro i bo bl hib hsi hla hmax hfirst
    have hipos : i < pos := by omega
    rw [bestFrom]
    by_cases hlt : bl < mlen input i pos
    · rw [if_pos hlt]
      have hmax' : ∀ j, j < i + 1 → start0 ≤ j → mlen input j pos ≤ mlen input i pos := by
        intro j hj hj2
        rcases Nat.lt_or_ge j i with hji | hji
        · have := hmax j hji hj2; omega
        · have : j = i := by omega
          subst this; omega
      have hfirst' : 0 < mlen input i pos → ∃ i0, start0 ≤ i0 ∧ i0 < i + 1 ∧
          pos - i = pos - i0 ∧ mlen input i pos = mlen input i0 pos ∧
          ∀ j, j < i0 → start0 ≤ j → mlen input j pos < mlen input i pos := by
        intro _
        exact ⟨i, hsi, by omega, rfl, rfl, fun j hj hj2 => by
          have := hmax j hj hj2; omega⟩
      by_cases heq : mlen input i pos = lookahead
      · rw [if_pos heq]
        refine ⟨by omega, ?_, ?_⟩
        · intro j hj hj2
          rcases Nat.lt_or_ge j (i + 1) with hji | hji
          · exact hmax' j hji hj2
          · have := mlen_le_lookahead input j pos; simp; omega
        · intro hpos0
          obtain ⟨i0, h1, h2, h3, h4, h5⟩ := hfirst' (by omega)
          exact ⟨i0, h1, by omega, h3, h4, h5⟩
      · rw [if_neg heq]
        refine ih (i + 1) (pos - i) (mlen input i pos) (by omega) (by omega)
          (by have := mlen_le_lookahead input i pos; omega) hmax' hfirst'
    · rw [if_neg hlt]
      have hmax' : ∀ j, j < i + 1 → start0 ≤ j → mlen input j pos ≤ bl := by
        intro j hj hj2
        rcases Nat.lt_or_ge j i with hji | hji
        · exact hmax j hji hj2
        · have : j = i := by omega
          subst this; omega
      have hfirst' : 0 < bl → ∃ i0, start0 ≤ i0 ∧ i0 < i + 1 ∧ bo = pos - i0 ∧
          bl = mlen input i0 pos ∧
          ∀ j, j < i0 → start0 ≤ j → mlen input j pos < bl := by
        intro hbl
        obtain ⟨i0, h1, h2, h3, h4, h5⟩ := hfirst hbl
        exact ⟨i0, h1, by omega, h3, h4, h5⟩
      by_cases heq : bl = lookahead
      · rw [if_pos heq]
        refine ⟨hla, ?_, fun hbl => ?_⟩
        · intro j hj hj2
          rcases Nat.lt_or_ge j (i + 1) with hji | hji
          · exact hmax' j hji hj2
          · have := mlen_le_lookahead input j pos; omega
        · obtain ⟨i0, h1, h2, h3, h4, h5⟩ := hfirst' hbl
          exact ⟨i0, h1, by omega, h3, h4, h5⟩
      · rw [if_neg heq]
        exact ih (i + 1) bo bl (by omega) (by omega) hla hmax' hfirst'

theorem bstart_le (pos : Nat) : bstart pos ≤ pos := by
  unfold bstart; split <;> omega

theorem pos_sub_bstart_le (pos : Nat) : pos - bstart pos ≤ window_size := by
  unfold bstart; split <;> omega

/-- The scan as invoked by `compress` (from the window floor, with
`best_off = best_len = 0`) satisfies `BestPost`. -/
theorem best_at (input : List Nat) (pos : Nat) :
    BestPost input pos (bstart pos)
      (bestFrom input pos (pos - bstart pos) (bstart pos) 0 0) := by
  refine bestFrom_spec input pos (bstart pos) (pos - bstart pos) (bstart pos) 0 0
    ?_ le_rfl (by unfold lookahead; omega) ?_ ?_
  · have := bstart_le pos; omega
  · intro j hj hj2; omega
  · intro h; omega

/-! ## Correctness of the overlapping match copy -/

theorem copyLoop_length (out : List Nat) (start : Nat) :
    ∀ len, (copyLoop out start len).length = out.length + len := by
  intro len
  induction len generalizing out start with
  | zero => simp [copyLoop]
  | succ len ih =>
    rw [copyLoop, ih]
    simp
    omega

theorem getD_take (l : List Nat) : ∀ (p i : Nat), i < p →
    (l.take p).getD i 0 = l.getD i 0 := by
  induction l with
  | nil => intro p i _; simp
  | cons a l ih =>
    intro p i hip
    match p, i with
    | p + 1, 0 => simp
    | p + 1, i + 1 =>
      simp only [List.take_succ_cons, List.getD_cons_succ]
      exact ih p i (by omega)

theorem take_getD (l : List Nat) : ∀ (p : Nat), p < l.length →
    l.take p ++ [l.getD p 0] = l.take (p + 1) := by
  induction l with
  | nil => intro p hp; simp at hp
  | cons a l ih =>
    intro p hp
    match p with
    | 0 => simp
    | p + 1 =>
      simp only [List.take_succ_cons, List.getD_cons_succ, List.cons_append, List.cons.injEq,
        true_and]
      exact ih p (by simpa using hp)

/-- An overlapping backward copy out of `input.take p`, whose source bytes
agree with the bytes at `p` onward (which is what the encoder's match search
guarantees), extends the decoded prefix by exactly those bytes — including
the self-referential case where the copy reads bytes it has just written. -/
theorem copyLoop_take (input : List Nat) :
    ∀ (len p start : Nat), start < p → p + len ≤ input.length →
    (∀ k, k < len → input.getD (start + k) 0 = input.getD (p + k) 0) →
    copyLoop (input.take p) start len = input.take (p + len) := by
  intro len
  induction len with
  | zero => intro p start _ _ _; simp [copyLoop]
  | succ len ih =>
    intro p start hsp hpl hagree
    rw [copyLoop]
    have hb : (input.take p).getD start 0 = input.getD p 0 := by
      rw [getD_take input p start hsp]
      have := hagree 0 (by omega)
      simpa using this
    rw [hb, take_getD input p (by omega)]
    have := ih (p + 1) (start + 1) (by omega) (by omega)
      (fun k hk => by
        have := hagree (k + 1) (by omega)
        have h1 : start + 1 + k = start + (k + 1) := by omega
        have h2 : p + 1 + k = p + (k + 1) := by omega
        rw [h1, h2]; exact this)
    rw [this]
    congr 1
    omega

/-! ## The codec round trip -/

/-- Invariant proof for the round trip: decoding the encoder's output from
position `pos` onward, with the decoded prefix `input.take pos` already
produced, recovers all of `input`.  `b` is the encoder's fuel. -/
theorem decompressLoop_compressFrom (input : List Nat) :
    ∀ (b pos : Nat), input.length - pos ≤ b → pos ≤ input.length →
    decompressLoop (compressFrom input b pos) (input.take pos) = Except.ok input := by
  intro b
  induction b with
  | zero =>
    intro pos h1 h2
    have : pos = input.length := by omega
    subst this
    rw [compressFrom]
    simp [decompressLoop]
  | succ b ih =>
    intro pos h1 h2
    by_cases hpos : pos < input.length
    · rw [compressFrom, if_pos hpos]
      have hpost := best_at input pos
      set best := bestFrom input pos (pos - bstart pos) (bstart pos) 0 0 with hbest
      by_cases h3 : 3 ≤ best.2
      · rw [if_pos h3]
        obtain ⟨hla, _hmax, hfirst⟩ := hpost
        obtain ⟨i0, hi0s, hi0p, hoff, hlen, _⟩ := hfirst (by omega)
        -- the emitted offset fits in 16 bits and its byte split re-assembles
        have hbo_le : best.1 ≤ window_size := by
          have := pos_sub_bstart_le pos
          omega
        have hws : window_size = 4096 := by unfold window_size; norm_num
        have hmod : best.1 % 65536 = best.1 := Nat.mod_eq_of_lt (by omega)
        have hmin : min best.2 255 = best.2 := by
          have : lookahead = 255 := rfl
          omega
        rw [hmod, hmin]
        have hlenle : pos + best.2 ≤ input.length := by
          rw [hlen]; exact mlen_add_le input i0 pos hpos
        rw [decompressLoop]
        have hdec : best.1 / 256 % 256 * 256 + best.1 % 256 = best.1 := by
          omega
        rw [hdec]
        have houtlen : (input.take pos).length = pos := by
          simp [Nat.min_eq_left (by omega : pos ≤ input.length)]
        rw [if_neg (by rw [houtlen]; omega)]
        rw [houtlen]
        have hstart : pos - best.1 = i0 := by omega
        rw [hstart]
        have hcopy : copyLoop (input.take pos) i0 best.2 = input.take (pos + best.2) := by
          refine copyLoop_take input best.2 pos i0 (by omega) hlenle ?_
          intro k hk
          exact (mlen_agree input i0 pos k (by omega)).2
        rw [hcopy]
        exact ih (pos + best.2) (by omega) hlenle
      · rw [if_neg h3]
        rw [decompressLoop]
        rw [take_getD input pos hpos]
        exact ih (pos + 1) (by omega) (by omega)
    · rw [compressFrom, if_neg hpos]
      have : pos = input.length := by omega
      subst this
      simp [decompressLoop]

/-- `decompress (compress B) = B` for every byte sequence `B`. -/
theorem decompress_compress (input : List Nat) :
    decompress (compress input) = Except.ok input := by
  have := decompressLoop_compressFrom input input.length 0 (by omega) (by omega)
  simpa [decompress, compress] using this

/-! ## Output size bound of the encoder -/

/-- Each literal token spends 2 bytes for 1 consumed input byte; each match
token spends 4 bytes for at least 3 consumed input bytes. -/
theorem compressFrom_length_le (input : List Nat) :
    ∀ b pos, input.length - pos ≤ b →
    (compressFrom input b pos).length ≤ 2 * (input.length - pos) := by
  intro b
  induction b with
  | zero => intro pos _; simp [compressFrom]
  | succ b ih =>
    intro pos h1
    by_cases hpos : pos < input.length
    · rw [compressFrom, if_pos hpos]
      have hpost := best_at input pos
      set best := bestFrom input pos (pos - bstart pos) (bstart pos) 0 0 with hbest
      by_cases h3 : 3 ≤ best.2
      · rw [if_pos h3]
        obtain ⟨_, _, hfirst⟩ := hpost
        obtain ⟨i0, _, _, _, hlen, _⟩ := hfirst (by omega)
        have hlenle : pos + best.2 ≤ input.length := by
          rw [hlen]; exact mlen_add_le input i0 pos hpos
        have := ih (pos + best.2) (by omega)
        simp only [List.length_cons]
        omega
      · rw [if_neg h3]
        have := ih (pos + 1) (by omega)
        simp only [List.length_cons]
        omega
    · rw [compressFrom, if_neg hpos]
      simp

/-- The encoder emits at least one token for a nonempty remainder. -/
theorem compressFrom_ne_nil (input : List Nat) (b pos : Nat)
    (hpos : pos < input.length) (hb : input.length - pos ≤ b) :
    compressFrom input b pos ≠ [] := by
  match b with
  | 0 => omega
  | b + 1 =>
    rw [compressFrom, if_pos hpos]
    split <;> simp

/-! ## The container format and the chunk pipeline

`main` (compress mode) computes the chunk boundaries, compresses each chunk
with its own `LZ77` codec, and `write_all` serializes magic `"MTC1"`, a `u32`
chunk count and, per chunk, `u64 original_size, u64 compressed_size` followed
by the compressed bytes (header/record integers in native little-endian
byte order).  `read_and_decompress_file` parses that container and appends
each decoded chunk to the output file. -/

/-- The four little-endian bytes of a `u32` as written by `fwrite(&cnt, 4, 1, f)`
(the `(u32)` cast's truncation is inherent in taking the low four bytes). -/
def u32le (x : Nat) : List Nat :=
  [x % 256, x / 2 ^ 8 % 256, x / 2 ^ 16 % 256, x / 2 ^ 24 % 256]

/-- The eight little-endian bytes of a `u64`. -/
def u64le (x : Nat) : List Nat :=
  [x % 256, x / 2 ^ 8 % 256, x / 2 ^ 16 % 256, x / 2 ^ 24 % 256,
   x / 2 ^ 32 % 256, x / 2 ^ 40 % 256, x / 2 ^ 48 % 256, x / 2 ^ 56 % 256]

/-- Reading back a `u32` from the first four bytes. -/
def readU32 (l : List Nat) : Nat :=
  l.getD 0 0 + 256 * (l.getD 1 0 + 256 * (l.getD 2 0 + 256 * l.getD 3 0))

/-- Reading back a `u64` from the first eight bytes. -/
def readU64 (l : List Nat) : Nat :=
  l.getD 0 0 + 256 * (l.getD 1 0 + 256 * (l.getD 2 0 + 256 * (l.getD 3 0 +
    256 * (l.getD 4 0 + 256 * (l.getD 5 0 + 256 * (l.getD 6 0 + 256 * l.getD 7 0))))))

theorem u32le_length (x : Nat) : (u32le x).length = 4 := rfl

theorem u64le_length (x : Nat) : (u64le x).length = 8 := rfl

theorem readU32_u32le (x : Nat) (hx : x < 2 ^ 32) : readU32 (u32le x) = x := by
  simp only [u32le, readU32, List.getD_cons_zero, List.getD_cons_succ]
  omega

theorem readU64_u64le (x : Nat) (hx : x < 2 ^ 64) : readU64 (u64le x) = x := by
  simp only [u64le, readU64, List.getD_cons_zero, List.getD_cons_succ]
  omega

/-- `size_t num_chunks = (fsize + chunk_size - 1) / chunk_size;` -/
def num_chunks (fsize cs : Nat) : Nat := (fsize + cs - 1) / cs

/-- `size_t read_sz = min(chunk_size, fsize - offset);` with `offset = i * chunk_size`. -/
def read_sz (fsize cs i : Nat) : Nat := min cs (fsize - i * cs)

/-- `original_sizes[i] = (i == num_chunks-1) ? (fsize - i*chunk_size) : chunk_size;` -/
def original_size (fsize cs i : Nat) : Nat :=
  if i = num_chunks fsize cs - 1 then fsize - i * cs else cs

/-- The bytes of chunk `i`: `read_file_chunk(inname, i*chunk_size, read_sz)`. -/
def chunkOf (B : List Nat) (cs i : Nat) : List Nat :=
  (B.drop (i * cs)).take (read_sz B.length cs i)

/-- The per-chunk records written by `write_all`:
`u64 original_size, u64 compressed_size, compressed bytes`. -/
def writeRecords : List (Nat × List Nat) → List Nat
  | [] => []
  | r :: rest => u64le r.1 ++ u64le r.2.length ++ r.2 ++ writeRecords rest

/-- `write_all`: magic `"MTC1"` (ASCII 77,84,67,49), `u32 chunk_count`, then
the records in chunk-index order. -/
def write_all (recs : List (Nat × List Nat)) : List Nat :=
  [77, 84, 67, 49] ++ u32le recs.length ++ writeRecords recs

/-- The compression path of `main`: reject an empty input
(`if (fsize == 0) ... return 1;`), otherwise compress every chunk and
serialize the container. -/
def compressFile (B : List Nat) (cs : Nat) : Except String (List Nat) :=
  if B.length = 0 then Except.error "cannot read input or file empty"
  else Except.ok (write_all ((List.range (num_chunks B.length cs)).map
    (fun i => (original_size B.length cs i, compress (chunkOf B cs i)))))

/-- The record loop of `read_and_decompress_file`: `cnt` iterations, each
reading `u64 orig, u64 comp`, then `comp` compressed bytes, decoding them and
appending the decoded bytes to the output.  The declared `orig` is compared
with the decoded length in the source, but the mismatch branch is empty
(`if (decomp.size() != orig) { /* comments only */ }`): no warning is
produced and the run continues, so the parsed `orig` is unused here.
`if (!decomp.empty()) fwrite(...)` is an unconditional append (appending
nothing when `decomp` is empty).  The first component of the result is what
has been written to the output file when the run finishes or dies. -/
def read_records : Nat → List Nat → List Nat → List Nat × Option String
  | 0, _, written => (written, none)
  | cnt + 1, data, written =>
    if data.length < 8 then (written, some "bad file")
    else if (data.drop 8).length < 8 then (written, some "bad file")
    else if ((data.drop 8).drop 8).length < readU64 ((data.drop 8).take 8) then
      (written, some "bad file read")
    else
      match decompress (((data.drop 8).drop 8).take (readU64 ((data.drop 8).take 8))) with
      | Except.error e => (written, some e)
      | Except.ok decomp =>
        read_records cnt (((data.drop 8).drop 8).drop (readU64 ((data.drop 8).take 8)))
          (written ++ decomp)

/-- `read_and_decompress_file`: check the 4-byte magic (`"bad file"` when
fewer than four bytes can be read, `"not a MTC1 file"` on a mismatch), read
the `u32` chunk count, then run the record loop.  The result pairs the bytes
written to the output with the error (if any) that aborted the run. -/
def read_and_decompress (file : List Nat) : List Nat × Option String :=
  if file.length < 4 then ([], some "bad file")
  else if file.take 4 ≠ [77, 84, 67, 49] then ([], some "not a MTC1 file")
  else if (file.drop 4).length < 4 then ([], some "bad file header")
  else read_records (readU32 ((file.drop 4).take 4)) ((file.drop 4).drop 4) []

/-! ## Chunk-boundary arithmetic and reassembly -/

theorem num_chunks_zero (cs : Nat) (hcs : 1 ≤ cs) : num_chunks 0 cs = 0 := by
  unfold num_chunks
  exact Nat.div_eq_of_lt (by omega)

theorem num_chunks_small (n cs : Nat) (hn : 1 ≤ n) (hcs : n ≤ cs) :
    num_chunks n cs = 1 := by
  unfold num_chunks
  have h1 : n + cs - 1 = (n - 1) + cs := by omega
  rw [h1, Nat.add_div_right _ (by omega)]
  rw [Nat.div_eq_of_lt (by omega)]

theorem num_chunks_step (n cs : Nat) (hcs : 1 ≤ cs) (hlt : cs < n) :
    num_chunks n cs = num_chunks (n - cs) cs + 1 := by
  unfold num_chunks
  have h1 : n + cs - 1 = (n - cs + cs - 1) + cs := by omega
  rw [h1, Nat.add_div_right _ (by omega)]

theorem num_chunks_le (n cs : Nat) (hcs : 1 ≤ cs) : num_chunks n cs ≤ n := by
  rcases Nat.eq_zero_or_pos n with rfl | hn
  · rw [num_chunks_zero cs hcs]
  · have hmul : n ≤ n * cs := Nat.le_mul_of_pos_right n (by omega)
    have : num_chunks n cs < n + 1 := by
      unfold num_chunks
      rw [Nat.div_lt_iff_lt_mul (by omega)]
      have : (n + 1) * cs = n * cs + cs := by ring
      omega
    omega

/-- Chunk `i + 1` of `B` is chunk `i` of `B` with its first `cs` bytes dropped. -/
theorem chunkOf_succ (B : List Nat) (cs i : Nat) :
    chunkOf B cs (i + 1) = chunkOf (B.drop cs) cs i := by
  unfold chunkOf read_sz
  rw [List.drop_drop]
  have h1 : (i + 1) * cs = cs + i * cs := by ring
  have h2 : (B.drop cs).length = B.length - cs := by simp
  rw [h1, h2]
  congr 2
  omega

/-- Concatenating the chunks in index order reproduces the input. -/
theorem chunk_flatten (cs : Nat) (hcs : 1 ≤ cs) :
    ∀ (k : Nat) (B : List Nat), num_chunks B.length cs = k →
    ((List.range k).map (chunkOf B cs)).flatten = B := by
  intro k
  induction k with
  | zero =>
    intro B hk
    have hB : B.length = 0 := by
      by_contra hne
      have h1 : 1 ≤ B.length := by omega
      rcases Nat.lt_or_ge cs B.length with hlt | hge
      · rw [num_chunks_step B.length cs hcs hlt] at hk; omega
      · rw [num_chunks_small B.length cs h1 hge] at hk; omega
    rw [List.eq_nil_of_length_eq_zero hB]
    simp
  | succ k ih =>
    intro B hk
    have hB : 1 ≤ B.length := by
      by_contra hne
      have : B.length = 0 := by omega
      rw [this, num_chunks_zero cs hcs] at hk
      omega
    rcases Nat.lt_or_ge cs B.length with hlt | hge
    · have hstep := num_chunks_step B.length cs hcs hlt
      have hk' : num_chunks (B.drop cs).length cs = k := by
        have hdl : (B.drop cs).length = B.length - cs := by simp
        rw [hdl]
        omega
      rw [List.range_succ_eq_map]
      simp only [List.map_cons, List.map_map, List.flatten_cons]
      have hhead : chunkOf B cs 0 = B.take cs := by
        unfold chunkOf read_sz
        simp only [Nat.zero_mul, List.drop_zero, Nat.sub_zero]
        rw [Nat.min_eq_left (by omega)]
      have htail : (List.range k).map (chunkOf B cs ∘ Nat.succ) =
          (List.range k).map (chunkOf (B.drop cs) cs) :=
        List.map_congr_left (fun i _ => chunkOf_succ B cs i)
      rw [hhead, htail, ih (B.drop cs) hk']
      exact List.take_append_drop cs B
    · have h1 : num_chunks B.length cs = 1 := num_chunks_small B.length cs hB hge
      have hk0 : k = 0 := by omega
      subst hk0
      have hr1 : List.range 1 = [0] := rfl
      rw [hr1]
      simp only [List.map_cons, List.map_nil, List.flatten_cons,
        List.flatten_nil, List.append_nil]
      unfold chunkOf read_sz
      simp only [Nat.zero_mul, List.drop_zero, Nat.sub_zero]
      rw [Nat.min_eq_right (by omega), List.take_length]

/-! ## Round trip of the whole container pipeline -/

/-- One step of the record loop on a well-formed record: parse the two size
fields, take exactly the compressed bytes, decode them and append. -/
theorem read_records_cons (cnt o : Nat) (c rest w d : List Nat)
    (hc : c.length < 2 ^ 64) (hd : decompress c = Except.ok d) :
    read_records (cnt + 1) (u64le o ++ u64le c.length ++ c ++ rest) w =
      read_records cnt rest (w ++ d) := by
  have he : u64le o ++ u64le c.length ++ c ++ rest =
      u64le o ++ (u64le c.length ++ (c ++ rest)) := by
    simp [List.append_assoc]
  rw [he]
  set data := u64le o ++ (u64le c.length ++ (c ++ rest)) with hdata
  have hd1 : data.drop 8 = u64le c.length ++ (c ++ rest) := by
    rw [hdata, List.drop_left' (u64le_length o)]
  have hd2 : (data.drop 8).take 8 = u64le c.length := by
    rw [hd1, List.take_left' (u64le_length _)]
  have hd3 : (data.drop 8).drop 8 = c ++ rest := by
    rw [hd1, List.drop_left' (u64le_length _)]
  have hread : readU64 ((data.drop 8).take 8) = c.length := by
    rw [hd2, readU64_u64le _ hc]
  rw [read_records]
  rw [if_neg (by rw [hdata]; simp [u64le])]
  rw [if_neg (by rw [hd1]; simp [u64le])]
  rw [hread, hd3]
  rw [if_neg (by simp)]
  rw [List.take_left' rfl, List.drop_left' rfl]
  rw [hd]

/-- Parsing the serialized records of compressed chunks decodes every chunk
and appends the decoded bytes, in record order, to what was already written. -/
theorem read_records_ok :
    ∀ (cl : List (List Nat)) (os w : List Nat), os.length = cl.length →
    (∀ ch ∈ cl, (compress ch).length < 2 ^ 64) →
    read_records cl.length (writeRecords (os.zip (cl.map compress))) w =
      (w ++ cl.flatten, none) := by
  intro cl
  induction cl with
  | nil =>
    intro os w _ _
    simp [read_records, writeRecords]
  | cons ch cl ih =>
    intro os w hlen hbound
    match os with
    | [] => simp at hlen
    | o :: os =>
      have hch : (compress ch).length < 2 ^ 64 := hbound ch (by simp)
      have hz : (o :: os).zip ((ch :: cl).map compress) =
          (o, compress ch) :: os.zip (cl.map compress) := rfl
      rw [hz]
      have hw : writeRecords ((o, compress ch) :: os.zip (cl.map compress)) =
          u64le o ++ u64le (compress ch).length ++ compress ch ++
            writeRecords (os.zip (cl.map compress)) := rfl
      rw [List.length_cons, hw]
      rw [read_records_cons cl.length o (compress ch) _ w ch hch (decompress_compress ch)]
      rw [ih os (w ++ ch) (by simpa using hlen) (fun c hc => hbound c (by simp [hc]))]
      simp

/-- Auxiliary: a mapped list of pairs is the zip of the two mapped component
lists (the shape `read_records_ok` consumes). -/
theorem map_pair_zip (g : Nat → Nat) (h : Nat → List Nat) (l : List Nat) :
    l.map (fun i => (g i, h i)) = (l.map g).zip (l.map h) := by
  induction l with
  | nil => rfl
  | cons a l ih => simp [ih]

/-- Decompressing the container produced by compressing `B` with any chunk
size ≥ 1 writes exactly `B` and reports no error.  (`B.length < 2 ^ 32`
keeps the `u32` chunk-count field of the header exact.) -/
theorem pipeline_roundtrip (B c : List Nat) (cs : Nat) (hcs : 1 ≤ cs)
    (hB : B.length < 2 ^ 32) (hc : compressFile B cs = Except.ok c) :
    read_and_decompress c = (B, none) := by
  unfold compressFile at hc
  by_cases h0 : B.length = 0
  · rw [if_pos h0] at hc; cases hc
  · rw [if_neg h0] at hc
    have hc' : c = write_all ((List.range (num_chunks B.length cs)).map
        (fun i => (original_size B.length cs i, compress (chunkOf B cs i)))) := by
      cases hc; rfl
    subst hc'
    set nc := num_chunks B.length cs with hnc
    set recs := (List.range nc).map
      (fun i => (original_size B.length cs i, compress (chunkOf B cs i))) with hrecs
    have hnc32 : nc < 2 ^ 32 := by
      have := num_chunks_le B.length cs hcs
      omega
    have hreclen : recs.length = nc := by simp [hrecs]
    unfold write_all read_and_decompress
    rw [if_neg (by simp [u32le])]
    have hmagic : ([77, 84, 67, 49] ++ u32le recs.length ++ writeRecords recs).take 4 =
        [77, 84, 67, 49] := by
      rw [List.append_assoc]
      exact List.take_left' rfl
    rw [if_neg (by rw [hmagic]; simp)]
    have hdrop : ([77, 84, 67, 49] ++ u32le recs.length ++ writeRecords recs).drop 4 =
        u32le recs.length ++ writeRecords recs := by
      rw [List.append_assoc]
      exact List.drop_left' rfl
    rw [hdrop]
    rw [if_neg (by simp [u32le])]
    rw [List.take_left' (u32le_length _), List.drop_left' (u32le_length _)]
    rw [hreclen, readU32_u32le nc hnc32]
    -- rewrite the records as a zip of sizes and compressed chunks
    have hzip : recs = ((List.range nc).map (original_size B.length cs)).zip
        (((List.range nc).map (chunkOf B cs)).map compress) := by
      rw [hrecs, map_pair_zip]
      congr 1
      rw [List.map_map]
      rfl
    rw [hzip]
    have hcl : ((List.range nc).map (chunkOf B cs)).length = nc := by simp
    have hbound : ∀ ch ∈ (List.range nc).map (chunkOf B cs),
        (compress ch).length < 2 ^ 64 := by
      intro ch hch
      simp only [List.mem_map] at hch
      obtain ⟨i, _, rfl⟩ := hch
      have h1 : (chunkOf B cs i).length ≤ B.length := by
        unfold chunkOf
        have := List.length_take (read_sz B.length cs i) (B.drop (i * cs))
        have := List.length_drop (i * cs) B
        omega
      have h2 := compressFrom_length_le (chunkOf B cs i) (chunkOf B cs i).length 0
        (by omega)
      unfold compress
      omega
    have := read_records_ok ((List.range nc).map (chunkOf B cs))
      ((List.range nc).map (original_size B.length cs)) [] (by simp) hbound
    rw [hcl] at this
    rw [this]
    rw [chunk_flatten cs hcs nc B rfl]
    simp

/-! ## Spec-side characterization of decoder failures (claim C2)

`decodeOk` is written from the specification's words, not from the code: a
token stream is decodable (relative to the number of bytes decoded so far)
unless it ends mid-token, contains a flag byte other than `0x00`/`0x01`, or
contains a Match whose offset is `0` or exceeds the current output length.
A Literal grows the output by one byte, a Match by its length field. -/
def decodeOk : List Nat → Nat → Bool
  | [], _ => true
  | [0], _ => false
  | 0 :: _ :: rest, olen => decodeOk rest (olen + 1)
  | 1 :: hi :: lo :: len :: rest, olen =>
    decide (1 ≤ hi * 256 + lo) && decide (hi * 256 + lo ≤ olen) && decodeOk rest (olen + len)
  | 1 :: _, _ => false
  | _ :: _, _ => false

/-- The decoder loop succeeds exactly on the streams the specification calls
well formed (relative to the length decoded so far). -/
theorem decompressLoop_isOk (s out : List Nat) :
    (decompressLoop s out).isOk = decodeOk s out.length := by
  induction s, out using decompressLoop.induct with
  | case1 out => simp [decompressLoop, decodeOk, Except.isOk, Except.toBool]
  | case2 out => simp [decompressLoop, decodeOk, Except.isOk, Except.toBool]
  | case3 b rest out ih =>
    rw [decompressLoop, decodeOk, ih]
    simp
  | case4 hi lo len rest out hbad =>
    rw [decompressLoop, if_pos hbad, decodeOk]
    simp only [Except.isOk, Except.toBool]
    rcases Nat.eq_zero_or_pos (hi * 256 + lo) with h | h
    · simp [h]
    · have hgt : ¬(hi * 256 + lo ≤ out.length) := by omega
      simp [hgt]
  | case5 hi lo len rest out hbad ih =>
    rw [decompressLoop, if_neg hbad, decodeOk]
    rw [ih, copyLoop_length]
    have h1 : 1 ≤ hi * 256 + lo := by omega
    have h2 : hi * 256 + lo ≤ out.length := by omega
    simp [h1, h2]
  | case6 tail out hne =>
    match tail, hne with
    | [], _ => simp [decompressLoop, decodeOk, Except.isOk, Except.toBool]
    | [x], _ => simp [decompressLoop, decodeOk, Except.isOk, Except.toBool]
    | [x, y], _ => simp [decompressLoop, decodeOk, Except.isOk, Except.toBool]
    | x :: y :: z :: r, hne => exact absurd rfl (hne x y z r)
  | case7 head tail out h1 h2 h3 h4 =>
    match head, tail, h1, h2, h4 with
    | 0, [], h1, _, _ => exact absurd (h1 rfl rfl) (fun h => h)
    | 0, b :: rest, _, h2, _ => exact absurd (h2 b rest rfl rfl) (fun h => h)
    | 1, _, _, _, h4 => exact absurd (h4 rfl) (fun h => h)
    | f + 2, tail, _, _, _ =>
      simp [decompressLoop, decodeOk, Except.isOk, Except.toBool]

/-! ## Token validity of the encoder's output (claim C4) -/

/-- Spec-side check, written from the claim's words: the stream parses as a
sequence of tokens in which every Match has offset in `[1, window_size]` and
length in `[3, 255]`. -/
def tokensValid : List Nat → Bool
  | [] => true
  | 0 :: _ :: rest => tokensValid rest
  | 1 :: hi :: lo :: len :: rest =>
    decide (1 ≤ hi * 256 + lo) && decide (hi * 256 + lo ≤ window_size) &&
      decide (3 ≤ len) && decide (len ≤ 255) && tokensValid rest
  | _ => false

theorem tokensValid_compressFrom (input : List Nat) :
    ∀ b pos, input.length - pos ≤ b →
    tokensValid (compressFrom input b pos) = true := by
  intro b
  induction b with
  | zero => intro pos _; simp [compressFrom, tokensValid]
  | succ b ih =>
    intro pos h1
    by_cases hpos : pos < input.length
    · rw [compressFrom, if_pos hpos]
      have hpost := best_at input pos
      set best := bestFrom input pos (pos - bstart pos) (bstart pos) 0 0 with hbest
      by_cases h3 : 3 ≤ best.2
      · rw [if_pos h3]
        obtain ⟨hla, _, hfirst⟩ := hpost
        obtain ⟨i0, hi0s, hi0p, hoff, hlen, _⟩ := hfirst (by omega)
        have hws : window_size = 4096 := by unfold window_size; norm_num
        have hbo_le : best.1 ≤ window_size := by
          have := pos_sub_bstart_le pos
          omega
        have hbo_pos : 1 ≤ best.1 := by omega
        have hmod : best.1 % 65536 = best.1 := Nat.mod_eq_of_lt (by omega)
        have hmin : min best.2 255 = best.2 := by
          have : lookahead = 255 := rfl
          omega
        have hlenle : pos + best.2 ≤ input.length := by
          rw [hlen]; exact mlen_add_le input i0 pos hpos
        rw [hmod, hmin, tokensValid]
        have hdec : best.1 / 256 % 256 * 256 + best.1 % 256 = best.1 := by omega
        rw [hdec]
        have hla' : best.2 ≤ 255 := by
          have : lookahead = 255 := rfl
          omega
        simp only [Bool.and_eq_true, decide_eq_true_eq]
        refine ⟨⟨⟨⟨hbo_pos, hbo_le⟩, h3⟩, hla'⟩, ?_⟩
        exact ih (pos + best.2) (by omega)
      · rw [if_neg h3, tokensValid]
        exact ih (pos + 1) (by omega)
    · rw [compressFrom, if_neg hpos]
      simp [tokensValid]

/-! ## In-bounds safety of the unchecked array accesses (claim C10)

The source indexes raw vectors without bounds checks: `out[start + i]` in the
decoder's overlapping copy, and `input[i + len]` in the encoder's match
scanner (its companion read `input[pos + len]` is guarded by the loop's own
`pos + len < n` test).  The `...Checked` variants below perform those
accesses only after an explicit bounds test and fail otherwise; proving them
equal to the unchecked embeddings shows the out-of-bounds branches are
unreachable. -/

/-- The match-copy loop with an explicit bounds check on the read `out[start+i]`. -/
def copyLoopChecked (out : List Nat) (start : Nat) : Nat → Option (List Nat)
  | 0 => some out
  | len + 1 =>
    if start < out.length then copyLoopChecked (out ++ [out.getD start 0]) (start + 1) len
    else none

/-- `LZ77::decompress` with the checked copy; an out-of-bounds read would
surface as a distinct `"out-of-bounds read"` error. -/
def decompressLoopChecked : List Nat → List Nat → Except String (List Nat)
  | [], out => Except.ok out
  | [0], _ => Except.error "corrupt literal"
  | 0 :: b :: rest, out => decompressLoopChecked rest (out ++ [b])
  | 1 :: hi :: lo :: len :: rest, out =>
    if hi * 256 + lo = 0 ∨ hi * 256 + lo > out.length then Except.error "invalid offset"
    else
      match copyLoopChecked out (out.length - (hi * 256 + lo)) len with
      | some out2 => decompressLoopChecked rest out2
      | none => Except.error "out-of-bounds read"
  | 1 :: _, _ => Except.error "corrupt match"
  | _ :: _, _ => Except.error "unknown token flag"

/-- The match scanner with an explicit bounds check on the read `input[i+len]`. -/
def matchLenFromChecked (input : List Nat) (i pos : Nat) : Nat → Nat → Option Nat
  | 0, len => some len
  | b + 1, len =>
    if pos + len < input.length then
      if i + len < input.length then
        if input.getD (i + len) 0 = input.getD (pos + len) 0 then
          matchLenFromChecked input i pos b (len + 1)
        else some len
      else none
    else some len

def mlenChecked (input : List Nat) (i pos : Nat) : Option Nat :=
  matchLenFromChecked input i pos lookahead 0

def bestFromChecked (input : List Nat) (pos : Nat) :
    Nat → Nat → Nat → Nat → Option (Nat × Nat)
  | 0, _, best_off, best_len => some (best_off, best_len)
  | b + 1, i, best_off, best_len =>
    match mlenChecked input i pos with
    | none => none
    | some len =>
      if best_len < len then
        if len = lookahead then some (pos - i, len)
        else bestFromChecked input pos b (i + 1) (pos - i) len
      else
        if best_len = lookahead then some (best_off, best_len)
        else bestFromChecked input pos b (i + 1) best_off best_len

def compressFromChecked (input : List Nat) : Nat → Nat → Option (List Nat)
  | 0, _ => some []
  | b + 1, pos =>
    if pos < input.length then
      match bestFromChecked input pos (pos - bstart pos) (bstart pos) 0 0 with
      | none => none
      | some best =>
        if 3 ≤ best.2 then
          match compressFromChecked input b (pos + best.2) with
          | none => none
          | some rest =>
            some (1 :: best.1 % 65536 / 256 % 256 :: best.1 % 65536 % 256
              :: min best.2 255 :: rest)
        else
          match compressFromChecked input b (pos + 1) with
          | none => none
          | some rest => some (0 :: input.getD pos 0 :: rest)
    else some []

def compressChecked (input : List Nat) : Option (List Nat) :=
  compressFromChecked input input.length 0

def decompressChecked (input : List Nat) : Except String (List Nat) :=
  decompressLoopChecked input []

/-- Once the copy starts strictly inside the output, every later read is in
bounds as well (the output grows in lock-step with the read index). -/
theorem copyLoopChecked_eq (out : List Nat) (start : Nat) :
    ∀ len, start < out.length →
    copyLoopChecked out start len = some (copyLoop out start len) := by
  intro len
  induction len generalizing out start with
  | zero => intro h; simp [copyLoopChecked, copyLoop]
  | succ len ih =>
    intro h
    rw [copyLoopChecked, if_pos h, copyLoop]
    exact ih (out ++ [out.getD start 0]) (start + 1) (by simp; omega)

theorem matchLenFromChecked_eq (input : List Nat) (i pos : Nat) (hip : i < pos) :
    ∀ b len, matchLenFromChecked input i pos b len =
      some (matchLenFrom input i pos b len) := by
  intro b
  induction b with
  | zero => intro len; simp [matchLenFromChecked, matchLenFrom]
  | succ b ih =>
    intro len
    rw [matchLenFromChecked, matchLenFrom]
    by_cases h1 : pos + len < input.length
    · rw [if_pos h1, if_pos (by omega)]
      by_cases h2 : input.getD (i + len) 0 = input.getD (pos + len) 0
      · rw [if_pos h2, if_pos ⟨h1, h2⟩]
        exact ih (len + 1)
      · rw [if_neg h2, if_neg (by tauto)]
    · rw [if_neg h1, if_neg (by tauto)]

theorem bestFromChecked_eq (input : List Nat) (pos : Nat) :
    ∀ b i best_off best_len, i + b = pos →
    bestFromChecked input pos b i best_off best_len =
      some (bestFrom input pos b i best_off best_len) := by
  intro b
  induction b with
  | zero => intro i bo bl _; simp [bestFromChecked, bestFrom]
  | succ b ih =>
    intro i bo bl hib
    have hip : i < pos := by omega
    rw [bestFromChecked, bestFrom]
    rw [show mlenChecked input i pos = some (mlen input i pos) from
      matchLenFromChecked_eq input i pos hip lookahead 0]
    dsimp only
    by_cases h1 : bl < mlen input i pos
    · rw [if_pos h1, if_pos h1]
      by_cases h2 : mlen input i pos = lookahead
      · rw [if_pos h2, if_pos h2]
      · rw [if_neg h2, if_neg h2]
        exact ih (i + 1) (pos - i) (mlen input i pos) (by omega)
    · rw [if_neg h1, if_neg h1]
      by_cases h2 : bl = lookahead
      · rw [if_pos h2, if_pos h2]
      · rw [if_neg h2, if_neg h2]
        exact ih (i + 1) bo bl (by omega)

theorem compressFromChecked_eq (input : List Nat) :
    ∀ b pos, compressFromChecked input b pos = some (compressFrom input b pos) := by
  intro b
  induction b with
  | zero => intro pos; simp [compressFromChecked, compressFrom]
  | succ b ih =>
    intro pos
    rw [compressFromChecked, compressFrom]
    by_cases hpos : pos < input.length
    · rw [if_pos hpos, if_pos hpos]
      rw [bestFromChecked_eq input pos (pos - bstart pos) (bstart pos) 0 0
        (by have := bstart_le pos; omega)]
      dsimp only
      by_cases h3 : 3 ≤ (bestFrom input pos (pos - bstart pos) (bstart pos) 0 0).2
      · rw [if_pos h3, if_pos h3, ih]
      · rw [if_neg h3, if_neg h3, ih]
    · rw [if_neg hpos, if_neg hpos]

/-- The checked decoder agrees with the unchecked one: after the offset
check `1 ≤ off ≤ out.length` passes, every read of the overlapping copy is
in bounds. -/
theorem decompressLoopChecked_eq (s out : List Nat) :
    decompressLoopChecked s out = decompressLoop s out := by
  induction s, out using decompressLoop.induct with
  | case1 out => rfl
  | case2 out => rfl
  | case3 b rest out ih =>
    rw [decompressLoopChecked, decompressLoop, ih]
  | case4 hi lo len rest out hbad =>
    rw [decompressLoopChecked, decompressLoop, if_pos hbad, if_pos hbad]
  | case5 hi lo len rest out hbad ih =>
    rw [decompressLoopChecked, decompressLoop, if_neg hbad, if_neg hbad]
    rw [copyLoopChecked_eq out (out.length - (hi * 256 + lo)) len (by omega)]
    dsimp only
    rw [ih]
  | case6 tail out hne =>
    match tail, hne with
    | [], _ => rfl
    | [x], _ => rfl
    | [x, y], _ => rfl
    | x :: y :: z :: r, hne => exact absurd (hne x y z r rfl) (fun h => h)
  | case7 head tail out h1 h2 h3 h4 =>
    match head, tail, h1, h2, h4 with
    | 0, [], h1, _, _ => exact absurd (h1 rfl rfl) (fun h => h)
    | 0, b :: rest, _, h2, _ => exact absurd (h2 b rest rfl rfl) (fun h => h)
    | 1, _, _, _, h4 => exact absurd (h4 rfl) (fun h => h)
    | f + 2, tail, _, _, _ => rfl

/-- Any error the decoder raises is one of the four corruption messages. -/
theorem decompressLoop_error_mem (s out : List Nat) (e : String)
    (he : decompressLoop s out = Except.error e) :
    e = "corrupt literal" ∨ e = "corrupt match" ∨ e = "invalid offset" ∨
      e = "unknown token flag" := by
  induction s, out using decompressLoop.induct with
  | case1 out => cases he
  | case2 out => cases he; tauto
  | case3 b rest out ih =>
    rw [decompressLoop] at he
    exact ih he
  | case4 hi lo len rest out hbad =>
    rw [decompressLoop, if_pos hbad] at he
    cases he; tauto
  | case5 hi lo len rest out hbad ih =>
    rw [decompressLoop, if_neg hbad] at he
    exact ih he
  | case6 tail out hne =>
    match tail, hne, he with
    | [], _, he => cases he; tauto
    | [x], _, he => cases he; tauto
    | [x, y], _, he => cases he; tauto
    | x :: y :: z :: r, hne, _ => exact absurd (hne x y z r rfl) (fun h => h)
  | case7 head tail out h1 h2 h3 h4 =>
    match head, tail, h1, h2, h4, he with
    | 0, [], h1, _, _, _ => exact absurd (h1 rfl rfl) (fun h => h)
    | 0, b :: rest, _, h2, _, _ => exact absurd (h2 b rest rfl rfl) (fun h => h)
    | 1, _, _, _, h4, _ => exact absurd (h4 rfl) (fun h => h)
    | f + 2, tail, _, _, _, he => cases he; tauto

/-! # The claims -/

/-- C6: for every total file size > 0 and chunk size ≥ 1, the chunk count
`(fsize + cs - 1) / cs` equals `⌈fsize / cs⌉`; every chunk except possibly
the last is read at exactly the chunk size, the last chunk's size is
`fsize % cs` (or the full `cs` when that remainder is 0), the bytes actually
read for chunk `i` have exactly the computed size, an input of exactly `cs`
bytes yields 1 chunk, and an input of `cs + 1` bytes yields 2 chunks with
the second of length 1. -/
theorem C6_chunk_sizes (fsize cs : Nat) (hfs : 0 < fsize) (hcs : 1 ≤ cs) :
    num_chunks fsize cs = fsize / cs + (if fsize % cs = 0 then 0 else 1) ∧
    (∀ i, i + 1 < num_chunks fsize cs → read_sz fsize cs i = cs) ∧
    read_sz fsize cs (num_chunks fsize cs - 1) =
      (if fsize % cs = 0 then cs else fsize % cs) ∧
    (∀ B : List Nat, B.length = fsize → ∀ i, i < num_chunks fsize cs →
      (chunkOf B cs i).length = read_sz fsize cs i) ∧
    (fsize = cs → num_chunks fsize cs = 1) ∧
    (fsize = cs + 1 → num_chunks fsize cs = 2 ∧ read_sz fsize cs 1 = 1) := by
  have hr : fsize % cs < cs := Nat.mod_lt fsize (by omega)
  have hqr := Nat.div_add_mod fsize cs
  set q := fsize / cs with hq
  set r := fsize % cs with hrr
  clear_value q r
  have h51 : fsize = cs → q = 1 ∧ r = 0 := by
    intro heq
    constructor
    · rw [hq, heq]; exact Nat.div_self (by omega)
    · rw [hrr, heq]; exact Nat.mod_self cs
  clear hq hrr
  have hq1 : r = 0 → 1 ≤ q := by
    intro h0
    rcases Nat.eq_zero_or_pos q with hq0 | hq1
    · rw [hq0] at hqr; simp at hqr; omega
    · exact hq1
  have hnc : num_chunks fsize cs = if r = 0 then q else q + 1 := by
    by_cases h0 : r = 0
    · rw [if_pos h0]
      have he : fsize + cs - 1 = (cs - 1) + cs * q := by omega
      unfold num_chunks
      rw [he, Nat.add_mul_div_left _ _ (by omega : 0 < cs),
        Nat.div_eq_of_lt (by omega)]
      omega
    · rw [if_neg h0]
      have hmul : cs * (q + 1) = cs * q + cs := by ring
      have he : fsize + cs - 1 = (r - 1) + cs * (q + 1) := by omega
      unfold num_chunks
      rw [he, Nat.add_mul_div_left _ _ (by omega : 0 < cs),
        Nat.div_eq_of_lt (by omega)]
      omega
  refine ⟨?_, ?_, ?_, ?_, ?_, ?_⟩
  · rw [hnc]
    by_cases h0 : r = 0 <;> simp [h0]
  · intro i hi
    rw [hnc] at hi
    have hiq : i + 1 ≤ q := by
      by_cases h0 : r = 0
      · rw [if_pos h0] at hi; omega
      · rw [if_neg h0] at hi; omega
    have hmul : (i + 1) * cs ≤ q * cs := Nat.mul_le_mul_right cs hiq
    have h1 : (i + 1) * cs = i * cs + cs := by ring
    have h2 : cs * q = q * cs := by ring
    unfold read_sz
    omega
  · rw [hnc]
    by_cases h0 : r = 0
    · rw [if_pos h0, if_pos h0]
      have hq2 := hq1 h0
      have h3 : q * cs = (q - 1) * cs + cs := by
        have h4 : q - 1 + 1 = q := by omega
        calc q * cs = (q - 1 + 1) * cs := by rw [h4]
          _ = (q - 1) * cs + cs := by ring
      have h2 : cs * q = q * cs := by ring
      unfold read_sz
      omega
    · rw [if_neg h0, if_neg h0]
      have h2 : cs * q = q * cs := by ring
      have h5 : q + 1 - 1 = q := by omega
      rw [h5]
      unfold read_sz
      omega
  · intro B hB i _hi
    unfold chunkOf
    rw [List.length_take, List.length_drop, hB]
    unfold read_sz
    omega
  · intro heq
    obtain ⟨hq', hr'⟩ := h51 heq
    rw [hnc, if_pos hr', hq']
  · intro heq
    constructor
    · unfold num_chunks
      have he : fsize + cs - 1 = cs * 2 := by omega
      rw [he]
      exact Nat.mul_div_cancel_left 2 (by omega)
    · unfold read_sz
      have h1 : 1 * cs = cs := by ring
      omega

/-- C6 witness: `fsize = 5`, `cs = 2` gives 3 chunks, full middle chunks and
a final chunk of 1 byte. -/
theorem C6_chunk_sizes_witness :
    num_chunks 5 2 = 5 / 2 + (if 5 % 2 = 0 then 0 else 1) ∧
    read_sz 5 2 0 = 2 ∧
    read_sz 5 2 (num_chunks 5 2 - 1) = (if 5 % 2 = 0 then 2 else 5 % 2) ∧
    (chunkOf [10, 11, 12, 13, 14] 2 2).length = read_sz 5 2 2 := by
  have h := C6_chunk_sizes 5 2 (by decide) (by decide)
  exact ⟨h.1, h.2.1 0 (by decide), h.2.2.1,
    h.2.2.2.1 [10, 11, 12, 13, 14] (by decide) 2 (by decide)⟩

/-- C1: decoding the encoder's output reproduces the input byte sequence
exactly, and at the pipeline level, for every chunk size ≥ 1, decompressing
the container produced by compressing `B` writes exactly `B` and no error.
(The bound `B.length < 2 ^ 32` keeps the container's `u32` chunk-count field
exact, matching the source's `(u32)chunks.size()` cast.) -/
theorem C1_round_trip :
    (∀ B : List Nat, decompress (compress B) = Except.ok B) ∧
    (∀ (B c : List Nat) (cs : Nat), 1 ≤ cs → B.length < 2 ^ 32 →
      compressFile B cs = Except.ok c → read_and_decompress c = (B, none)) :=
  ⟨decompress_compress,
   fun B c cs hcs hB hc => pipeline_roundtrip B c cs hcs hB hc⟩

/-- C1 witness: the 7-byte input `[1,2,3,1,2,3,4]` with chunk size 3. -/
theorem C1_round_trip_witness :
    decompress (compress [1, 2, 3, 1, 2, 3, 4]) = Except.ok [1, 2, 3, 1, 2, 3, 4] ∧
    ∃ c, compressFile [1, 2, 3, 1, 2, 3, 4] 3 = Except.ok c ∧
      read_and_decompress c = ([1, 2, 3, 1, 2, 3, 4], none) :=
  ⟨C1_round_trip.1 [1, 2, 3, 1, 2, 3, 4],
   _, rfl, C1_round_trip.2 [1, 2, 3, 1, 2, 3, 4] _ 3 (by decide) (by decide) rfl⟩

/-- C2: decoding fails exactly when the stream ends mid-token, an
unrecognized flag byte occurs, or a Match offset is 0 or exceeds the output
decoded so far (`decodeOk`, written from the claim's words); and any error
raised is one of the decoder's four corruption messages. -/
theorem C2_corruption_detection (s : List Nat) :
    (decompress s).isOk = decodeOk s 0 ∧
    (∀ e, decompress s = Except.error e →
      e = "corrupt literal" ∨ e = "corrupt match" ∨ e = "invalid offset" ∨
        e = "unknown token flag") :=
  ⟨decompressLoop_isOk s [],
   fun e he => decompressLoop_error_mem s [] e he⟩

/-- C2 witness: the stream `[2, 0]` starts with flag byte `0x02` and fails
with the unknown-token-flag corruption error. -/
theorem C2_corruption_detection_witness :
    (decompress [2, 0]).isOk = decodeOk [2, 0] 0 ∧
    ("unknown token flag" = "corrupt literal" ∨
      "unknown token flag" = "corrupt match" ∨
      "unknown token flag" = "invalid offset" ∨
      "unknown token flag" = "unknown token flag") :=
  ⟨(C2_corruption_detection [2, 0]).1,
   (C2_corruption_detection [2, 0]).2 "unknown token flag" rfl⟩

/-- C3 counterexample: on input `[1,2,3,9,1,2,3,8,1,2,3]`, at position 8 the
candidates at `i = 0` (offset 8) and `i = 4` (offset 4) tie at the maximal
match length 3, yet the encoder emits the match with offset 8 — the
*largest* offset, not the smallest as the claim states — because the scan
runs from the window floor forward and keeps the first maximum. -/
theorem C3_smallest_offset_counterexample :
    mlen [1, 2, 3, 9, 1, 2, 3, 8, 1, 2, 3] 0 8 = 3 ∧
    mlen [1, 2, 3, 9, 1, 2, 3, 8, 1, 2, 3] 4 8 = 3 ∧
    bestFrom [1, 2, 3, 9, 1, 2, 3, 8, 1, 2, 3] 8 8 0 0 0 = (8, 3) ∧
    compress [1, 2, 3, 9, 1, 2, 3, 8, 1, 2, 3] =
      [0, 1, 0, 2, 0, 3, 0, 9, 1, 0, 4, 3, 0, 8, 1, 0, 8, 3] := by
  decide

/-- C3 amended: among candidate matches of equal maximal length the encoder
emits the one with the *largest* offset (the farthest-back / least recent
match): the emitted length bounds every candidate's match length, and any
candidate attaining it lies at offset at most the emitted one. -/
theorem C3_largest_offset_tie_break (input : List Nat) (pos bo bl : Nat)
    (_hpos : pos < input.length)
    (hbest : bestFrom input pos (pos - bstart pos) (bstart pos) 0 0 = (bo, bl))
    (h3 : 3 ≤ bl) :
    ∀ j, j < pos → bstart pos ≤ j →
      mlen input j pos ≤ bl ∧ (mlen input j pos = bl → pos - j ≤ bo) := by
  have hpost := best_at input pos
  rw [hbest] at hpost
  obtain ⟨_, hmax, hfirst⟩ := hpost
  obtain ⟨i0, hi0s, hi0p, hoff, hlen, hbelow⟩ := hfirst (by omega)
  intro j hj hj2
  refine ⟨hmax j hj hj2, fun heq => ?_⟩
  rcases Nat.lt_or_ge j i0 with hji | hji
  · have := hbelow j hji hj2
    omega
  · omega

/-- C3 amended witness: on the counterexample input, the candidate at offset
4 ties the maximal length 3, and its offset is at most the emitted offset 8. -/
theorem C3_largest_offset_tie_break_witness :
    mlen [1, 2, 3, 9, 1, 2, 3, 8, 1, 2, 3] 4 8 ≤ 3 ∧
    (mlen [1, 2, 3, 9, 1, 2, 3, 8, 1, 2, 3] 4 8 = 3 → 8 - 4 ≤ 8) :=
  C3_largest_offset_tie_break [1, 2, 3, 9, 1, 2, 3, 8, 1, 2, 3] 8 8 3
    (by decide) (by decide) (by decide) 4 (by decide) (by decide)

/-- C4: every Match token in the encoder's output has offset in
`[1, window_size]` and length in `[3, 255]` (`tokensValid`, written from the
claim's words); when no candidate in the window matches with length ≥ 3 the
encoder emits a Literal for the byte at `pos` and advances by 1, and when the
best match has length ≥ 3 it emits that Match and advances by its length. -/
theorem C4_token_validity (input : List Nat) :
    tokensValid (compress input) = true ∧
    (∀ b pos, pos < input.length → input.length - pos ≤ b →
      ((∀ j, j < pos → bstart pos ≤ j → mlen input j pos < 3) →
        compressFrom input b pos =
          0 :: input.getD pos 0 :: compressFrom input (b - 1) (pos + 1)) ∧
      (∀ bo bl, bestFrom input pos (pos - bstart pos) (bstart pos) 0 0 = (bo, bl) →
        3 ≤ bl →
        compressFrom input b pos =
          1 :: bo / 256 % 256 :: bo % 256 :: bl :: compressFrom input (b - 1) (pos + bl))) := by
  constructor
  · exact tokensValid_compressFrom input input.length 0 (by omega)
  · intro b pos hpos hb
    obtain ⟨b', rfl⟩ : ∃ b', b = b' + 1 := ⟨b - 1, by omega⟩
    constructor
    · intro hno
      have hpost := best_at input pos
      set best := bestFrom input pos (pos - bstart pos) (bstart pos) 0 0 with hbest
      have hlt3 : ¬ 3 ≤ best.2 := by
        intro h3
        obtain ⟨_, _, hfirst⟩ := hpost
        obtain ⟨i0, hi0s, hi0p, _, hlen, _⟩ := hfirst (by omega)
        have := hno i0 hi0p hi0s
        omega
      rw [compressFrom, if_pos hpos, if_neg hlt3]
      simp
    · intro bo bl hbest h3
      have hpost := best_at input pos
      rw [hbest] at hpost
      obtain ⟨hla, _, hfirst⟩ := hpost
      obtain ⟨i0, hi0s, hi0p, hoff, hlen, _⟩ := hfirst (by omega)
      have hws : window_size = 4096 := by unfold window_size; norm_num
      have hbo_le : bo ≤ window_size := by
        have := pos_sub_bstart_le pos
        omega
      have hmod : bo % 65536 = bo := Nat.mod_eq_of_lt (by omega)
      have hmin : min bl 255 = bl := by
        have : lookahead = 255 := rfl
        omega
      rw [compressFrom, if_pos hpos, hbest, if_pos h3, hmod, hmin]
      simp

/-- C4 witness: on input `[7, 7]` at position 1 no candidate reaches length
3, so a Literal for byte 7 is emitted and the position advances by 1. -/
theorem C4_token_validity_witness :
    tokensValid (compress [7, 7]) = true ∧
    compressFrom [7, 7] 1 1 = 0 :: 7 :: compressFrom [7, 7] 0 2 := by
  refine ⟨(C4_token_validity [7, 7]).1, ?_⟩
  have h := ((C4_token_validity [7, 7]).2 1 1 (by decide) (by decide)).1 (by decide)
  simpa using h

/-- C5 counterexample: compressing an empty input does not produce a
container at all — `main` rejects it with `"cannot read input or file
empty"` and exit code 1 — contradicting the claim that it produces a
container with `chunk_count = 0`. -/
theorem C5_empty_input_counterexample :
    compressFile [] 1024 = Except.error "cannot read input or file empty" := rfl

/-- C5 amended: compressing an empty input file fails with an error (no
container is written), for any chunk size; decompressing a container whose
chunk count is 0 and which contains no records produces zero output bytes
and no error. -/
theorem C5_empty_input_amended :
    (∀ cs : Nat, compressFile [] cs = Except.error "cannot read input or file empty") ∧
    read_and_decompress ([77, 84, 67, 49] ++ u32le 0) = ([], none) :=
  ⟨fun _ => rfl, rfl⟩

/-- C7: a container whose first four bytes are not the literal `"MTC1"`
fails with the `"not a MTC1 file"` format error and writes zero output
bytes (the magic check precedes any record processing). -/
theorem C7_bad_magic (magic rest : List Nat) (h4 : magic.length = 4)
    (hne : magic ≠ [77, 84, 67, 49]) :
    read_and_decompress (magic ++ rest) = ([], some "not a MTC1 file") := by
  unfold read_and_decompress
  rw [if_neg (by simp [h4]), List.take_left' h4, if_pos hne]

/-- C7 witness: the magic corrupted to `"MTC2"` (ASCII 77,84,67,50). -/
theorem C7_bad_magic_witness :
    read_and_decompress ([77, 84, 67, 50] ++ [0, 0, 0, 0]) =
      ([], some "not a MTC1 file") :=
  C7_bad_magic [77, 84, 67, 50] [0, 0, 0, 0] rfl (by decide)

/-- C8: a container whose single record declares `original_size = 5` but
whose token stream `[0x00 65, 0x00 66]` decodes to only 2 bytes is processed
without aborting: the decoded bytes are written and no error is reported —
and, because the source's mismatch branch is empty, no warning is produced
either (the result carries no diagnostic at all), contradicting the claim's
"logged/reported as a warning". -/
theorem C8_size_mismatch_silent :
    read_and_decompress ([77, 84, 67, 49] ++ u32le 1 ++ u64le 5 ++ u64le 4 ++
      [0, 65, 0, 66]) = ([65, 66], none) := by decide

/-- C9: the encoder's output is at most twice the input's size, and is empty
exactly when the input is empty. -/
theorem C9_output_bound (B : List Nat) :
    (compress B).length ≤ 2 * B.length ∧ (compress B = [] ↔ B = []) := by
  refine ⟨?_, ?_, ?_⟩
  · have := compressFrom_length_le B B.length 0 (by omega)
    unfold compress
    omega
  · intro h
    by_contra hne
    have hlen : 0 < B.length := List.length_pos.mpr hne
    exact absurd h (compressFrom_ne_nil B B.length 0 hlen (by omega))
  · intro h
    subst h
    rfl

/-- C10: the unchecked array reads of the source — `out[start + i]` in the
decoder's overlapping copy and `input[i + len]` in the encoder's match
scanner — are always in bounds: the variants that bounds-check every such
access compute exactly the same results, so the out-of-bounds branches are
unreachable. -/
theorem C10_memory_safety :
    (∀ input : List Nat, compressChecked input = some (compress input)) ∧
    (∀ s : List Nat, decompressChecked s = decompress s) :=
  ⟨fun input => compressFromChecked_eq input input.length 0,
   fun s => decompressLoopChecked_eq s []⟩

end MTC
